import Mathlib

/-!
Verification development for the ragai admin/chat frontend.

JavaScript strings are modelled as `List Char` (`JStr`); the pure
normalization and partitioning functions of the frontend are translated
into executable Lean definitions, and the claimed properties are proved
or refuted against them.
-/

/-- JavaScript strings are modelled as lists of characters. -/
abbrev JStr := List Char

/-- Characters trimmed by JavaScript `String.prototype.trim` (ASCII subset:
space, tab, line feed, carriage return, vertical tab, form feed). -/
def isJsWs (c : Char) : Bool :=
  c == ' ' || c == '\t' || c == '\n' || c == '\r' || c == '\x0b' || c == '\x0c'

/-- Model of JavaScript `s.trim()`: drop leading and trailing whitespace. -/
def jsTrim (s : JStr) : JStr :=
  ((s.dropWhile isJsWs).reverse.dropWhile isJsWs).reverse

/-- Case-insensitive character comparison, as used by the `/i` regular
expression flag (ASCII case folding via `Char.toLower`). -/
def ciEq (a b : Char) : Bool := a.toLower == b.toLower

/-- Boolean string-prefix test (JavaScript `String.prototype.startsWith`). -/
def pfx : JStr → JStr → Bool
  | [], _ => true
  | _ :: _, [] => false
  | a :: as, b :: bs => a == b && pfx as bs

/-- Case-insensitive prefix test (anchored `/i` regular expression match). -/
def ciPfx : JStr → JStr → Bool
  | [], _ => true
  | _ :: _, [] => false
  | a :: as, b :: bs => ciEq a b && ciPfx as bs

/-- Lowercase an entire string (model of `String.prototype.toLowerCase`,
ASCII case folding). -/
def lowerStr (s : JStr) : JStr := s.map Char.toLower

/-- Substring test (JavaScript `String.prototype.includes`). -/
def hasSub : JStr → JStr → Bool
  | [], needle => pfx needle []
  | hay@(_ :: t), needle => pfx needle hay || hasSub t needle

/-- First capture group characters of `/^([a-zA-Z][a-zA-Z0-9+.-]*):\/\//`:
a letter. -/
def isSchemeStart (c : Char) : Bool := c.isAlpha

/-- Continuation characters of the scheme capture group. -/
def isSchemeChar (c : Char) : Bool :=
  c.isAlpha || c.isDigit || c == '+' || c == '.' || c == '-'

/-- Model of `url.match(/^([a-zA-Z][a-zA-Z0-9+.-]*):\/\/)/`: returns the
captured scheme when the anchored pattern matches. -/
def matchScheme (s : JStr) : Option JStr :=
  match s with
  | [] => none
  | c :: rest =>
    if isSchemeStart c then
      let run := rest.takeWhile isSchemeChar
      let after := rest.dropWhile isSchemeChar
      if pfx [':', '/', '/'] after then some (c :: run) else none
    else none

/-- Model of `schemeMatch[1].match(/^https?$/i)`. -/
def schemeIsHttp (sch : JStr) : Bool :=
  lowerStr sch == "http".toList || lowerStr sch == "https".toList

/-- The literal characters of `http://`. -/
def httpP : JStr := ['h', 't', 't', 'p', ':', '/', '/']

/-- The literal characters of `https://`. -/
def httpsP : JStr := ['h', 't', 't', 'p', 's', ':', '/', '/']

/-- Model of `url.match(/^https?:\/\//i)` used as a boolean test. -/
def startsWithHttpSchemeCI (s : JStr) : Bool := ciPfx httpP s || ciPfx httpsP s

/-- Model of `url.match(/^http:\/\//i)` used as a boolean test. -/
def startsWithHttpOnlyCI (s : JStr) : Bool := ciPfx httpP s

/-- The alert text `Invalid scheme "<sch>". Only http:// and https:// are
allowed.` thrown by `normalizeUrlRow`. -/
def invalidSchemeMsg (sch : JStr) : JStr :=
  "Invalid scheme \"".toList ++ sch ++ "\". Only http:// and https:// are allowed.".toList

/-- WHATWG URL input preprocessing characters: C0 controls and space. -/
def isC0OrSpace (c : Char) : Bool := c.toNat ≤ 32

/-- Models the browser built-in `new URL(url)` to the extent used by
`normalizeUrlRow`: returns `true` exactly when parsing succeeds and the
resulting `pathname` is empty or `/` (a root path).  The model covers
absolute `http(s)` URLs without userinfo or port: the constructor strips
leading/trailing C0 controls and spaces and interior tab/newline
characters, fails on an empty host or a host containing a control or
space character, and takes the path to run from the first `/` after the
authority up to `?` or `#`.  Parse failure (the `catch` branch of the
source) yields `false`. -/
def urlRootCheck (s : JStr) : Bool :=
  let t := ((s.dropWhile isC0OrSpace).reverse.dropWhile isC0OrSpace).reverse
  let t := t.filter (fun c => !(c == '\t' || c == '\n' || c == '\r'))
  match matchScheme t with
  | none => false
  | some sch =>
    if schemeIsHttp sch then
      let rest := t.drop (sch.length + 3)
      let auth := rest.takeWhile (fun c => !(c == '/' || c == '?' || c == '#'))
      if auth.isEmpty || auth.any (fun c => c.toNat ≤ 32) then false
      else
        let path := (rest.drop auth.length).takeWhile (fun c => !(c == '?' || c == '#'))
        (path.isEmpty || path == ['/'])
    else false

/-- Step of `normalizeUrlRow`: `if (!url.match(/^https?:\/\//i)) url =
(allowHttp ? 'http://' : 'https://') + url`. -/
def stepScheme (s : JStr) (allowHttp : Bool) : JStr :=
  if startsWithHttpSchemeCI s then s
  else (if allowHttp then httpP else httpsP) ++ s

/-- Step of `normalizeUrlRow`: `if (!allowHttp && url.match(/^http:\/\//i))
url = url.replace(/^http:\/\//i, 'https://')`. -/
def stepHttps (s : JStr) (allowHttp : Bool) : JStr :=
  if !allowHttp && startsWithHttpOnlyCI s then httpsP ++ s.drop 7 else s

/-- Step of `normalizeUrlRow`: strip the fragment, i.e. keep the characters
before the first `#` (`url.substring(0, url.indexOf('#'))`). -/
def stepHash (s : JStr) : JStr := s.takeWhile (fun c => c != '#')

/-- JavaScript `url.endsWith('/')`. -/
def endsWithSlash (s : JStr) : Bool := s.getLast? == some '/'

/-- Step of `normalizeUrlRow`: append a trailing `/` when the parsed URL has
a root path and the string does not already end in `/`. -/
def stepSlash (s : JStr) : JStr :=
  if urlRootCheck s && !endsWithSlash s then s ++ ['/'] else s

/-- The scheme-injection, downgrade, fragment-strip and trailing-slash part
of `normalizeUrlRow`, applied after the scheme-rejection check. -/
def finishNormalize (s : JStr) (allowHttp : Bool) : JStr :=
  stepSlash (stepHash (stepHttps (stepScheme s allowHttp) allowHttp))

/-- Result of `normalizeUrlRow`: a returned string or a thrown error
message. -/
inductive NormResult where
  | ok (url : JStr)
  | error (msg : JStr)
deriving DecidableEq, Repr

/-- Model of `normalizeUrlRow(input, allowHttp)` (admin crawl config):
trims, returns `''` for blank input, throws on a non-http(s) scheme,
injects a scheme according to `allowHttp`, downgrades `http://` to
`https://` when `allowHttp` is false, strips the fragment and ensures a
trailing slash for root paths. -/
def normalizeUrlRow (input : JStr) (allowHttp : Bool) : NormResult :=
  let url := jsTrim input
  if url.isEmpty then .ok []
  else
    match matchScheme url with
    | some sch =>
      if schemeIsHttp sch then .ok (finishNormalize url allowHttp)
      else .error (invalidSchemeMsg sch)
    | none => .ok (finishNormalize url allowHttp)

/-- A crawl seed row: `{ url, allow_http }`. -/
structure Seed where
  url : JStr
  allowHttp : Bool
deriving DecidableEq, Repr

/-- Model of `addSeedFromInput` restricted to its store effect: normalize
the input; on a thrown error, alert the message and leave
`crawlState.seeds` untouched; on an empty result, do nothing; otherwise
push the new seed.  Returns the new seed list and the alert message, when
one was raised. -/
def addSeedFromInput (seeds : List Seed) (input : JStr) (allowHttp : Bool) :
    List Seed × Option JStr :=
  match normalizeUrlRow input allowHttp with
  | .error msg => (seeds, some msg)
  | .ok v => if v.isEmpty then (seeds, none) else (seeds ++ [⟨v, allowHttp⟩], none)

/-- The five per-type crawl flags of an AllowRule. -/
structure TypeFlags where
  web : Bool
  pdf : Bool
  docx : Bool
  xlsx : Bool
  pptx : Bool
deriving DecidableEq, Repr

/-- The empty JavaScript object `{}` read as type flags: every flag falsy. -/
def emptyTypes : TypeFlags := ⟨false, false, false, false, false⟩

/-- In-memory allow rule as held by the admin view (fields optional where
the source guards with `||`). -/
structure AllowRuleState where
  id : Option String
  pattern : String
  matchMode : Option String
  types : Option TypeFlags
  allowHttp : Option Bool
  authProfile : Option String
deriving DecidableEq, Repr

/-- Request body sent to POST/PUT `/api/admin/allowed-urls`. -/
structure SavePayload where
  pattern : String
  matchMode : String
  types : TypeFlags
  allowHttp : Bool
  authProfile : Option String
deriving DecidableEq, Repr

/-- Model of the payload built by `saveAllowedUrlRow` (the per-row
save/edit path): `{ pattern: rule.pattern, match: rule.match || 'prefix',
types: rule.types || {}, allow_http: rule.allow_http || false,
auth_profile: rule.auth_profile || null }`. -/
def saveAllowedUrlRowPayload (rule : AllowRuleState) : SavePayload :=
  { pattern := rule.pattern
    matchMode := rule.matchMode.getD "prefix"
    types := rule.types.getD emptyTypes
    allowHttp := rule.allowHttp.getD false
    authProfile := rule.authProfile }

/-- Model of the `types` object built by `addAllowFromInput` from the five
checkboxes, including the default-to-web enforcement `if (!types.web &&
!types.pdf && !types.docx && !types.xlsx && !types.pptx) types.web =
true`. -/
def addAllowTypes (web pdf docx xlsx pptx : Bool) : TypeFlags :=
  let t : TypeFlags := ⟨web, pdf, docx, xlsx, pptx⟩
  if !t.web && !t.pdf && !t.docx && !t.xlsx && !t.pptx then { t with web := true } else t

/-- Request body sent by `addAllowFromInput` for a new rule (pattern
already normalized). -/
def addAllowPayload (pattern : String) (matchMode : String)
    (web pdf docx xlsx pptx allowHttp : Bool) : SavePayload :=
  { pattern := pattern
    matchMode := matchMode
    types := addAllowTypes web pdf docx xlsx pptx
    allowHttp := allowHttp
    authProfile := none }

/-- Sidebar width constants from `sidebar.js`. -/
def DEFAULT_SIDEBAR_WIDTH : Int := 320

/-- Lower clamp bound for the sidebar width. -/
def MIN_SIDEBAR_WIDTH : Int := 240

/-- Upper clamp bound for the sidebar width. -/
def MAX_SIDEBAR_WIDTH : Int := 520

/-- Model of `getStoredWidth`: `Number.parseInt` of the stored string
(`none` models `NaN`, i.e. a missing or non-numeric entry), then
`Math.min(MAX, Math.max(MIN, stored))`, or the default on `NaN`. -/
def getStoredWidth (stored : Option Int) : Int :=
  match stored with
  | none => DEFAULT_SIDEBAR_WIDTH
  | some v => min MAX_SIDEBAR_WIDTH (max MIN_SIDEBAR_WIDTH v)

/-- A validation finding as consumed by `renderValidationList`; absent
`severity`/`reason` fields are the empty string, matching the source's
`(item.severity || '')`. -/
structure Finding where
  url : JStr
  severity : JStr
  reason : JStr
deriving DecidableEq, Repr

/-- Model of the high-priority predicate of `renderValidationList`
(lines 2638-2650): severity `high`, or the lowercased reason containing
one of the trigger substrings. -/
def isHighPriorityFinding (item : Finding) : Bool :=
  let severity := lowerStr item.severity
  let reason := lowerStr item.reason
  if severity == "high".toList then true
  else if hasSub reason "login".toList || hasSub reason "cas redirect".toList then true
  else if hasSub reason "malformed_url".toList then true
  else if hasSub reason "401".toList || hasSub reason "403".toList
      || hasSub reason "5".toList then true
  else if hasSub reason "parser failed".toList || hasSub reason "no content".toList
      || hasSub reason "empty text".toList then true
  else false

/-- The high-priority section: `sortedList.filter(item => ...)`. -/
def highPriorityOf (l : List Finding) : List Finding := l.filter isHighPriorityFinding

/-- The lower-priority section: `sortedList.filter(item =>
!highPriority.includes(item))`. -/
def lowerPriorityOf (l : List Finding) : List Finding :=
  l.filter (fun item => !((highPriorityOf l).contains item))

/-- The claim's wording of the high-priority rule, as a proposition:
severity equals `high` case-insensitively, or the reason contains
(case-insensitively) one of the nine trigger substrings. -/
def highPriorityClaim (item : Finding) : Prop :=
  lowerStr item.severity = "high".toList
  ∨ hasSub (lowerStr item.reason) "login".toList = true
  ∨ hasSub (lowerStr item.reason) "cas redirect".toList = true
  ∨ hasSub (lowerStr item.reason) "malformed_url".toList = true
  ∨ hasSub (lowerStr item.reason) "401".toList = true
  ∨ hasSub (lowerStr item.reason) "403".toList = true
  ∨ hasSub (lowerStr item.reason) "5".toList = true
  ∨ hasSub (lowerStr item.reason) "parser failed".toList = true
  ∨ hasSub (lowerStr item.reason) "no content".toList = true
  ∨ hasSub (lowerStr item.reason) "empty text".toList = true

instance (item : Finding) : Decidable (highPriorityClaim item) := by
  unfold highPriorityClaim; infer_instance

/-- An allow rule as consulted by `isUrlAlreadyAllowed`: pattern plus match
mode string. -/
structure AllowRuleEntry where
  pattern : JStr
  matchMode : String
deriving DecidableEq, Repr

/-- Model of the per-rule coverage test inside `isUrlAlreadyAllowed`:
`rule.match === 'exact' ? rule.pattern === url : url.startsWith(rule.pattern)`. -/
def ruleCovers (rule : AllowRuleEntry) (url : JStr) : Bool :=
  if rule.matchMode == "exact" then rule.pattern == url else pfx rule.pattern url

/-- Model of `isUrlAlreadyAllowed(url)`: some rule covers the URL. -/
def isUrlAlreadyAllowed (rules : List AllowRuleEntry) (url : JStr) : Bool :=
  rules.any (fun rule => ruleCovers rule url)

/-- A crawl recommendation `{ suggested_url, count }`. -/
structure Recommendation where
  suggestedUrl : JStr
  count : Nat
deriving DecidableEq, Repr

/-- Model of the filter in `renderRecommendations`:
`allowRecommendations.filter(rec => !isUrlAlreadyAllowed(rec.suggested_url))`. -/
def filteredRecommendations (rules : List AllowRuleEntry) (recs : List Recommendation) :
    List Recommendation :=
  recs.filter (fun rec => !(isUrlAlreadyAllowed rules rec.suggestedUrl))

/-- Model of the rendered slice: `filtered.slice(0, recommendationsExpanded
? filtered.length : 3)`. -/
def displayedRecommendations (expanded : Bool) (rules : List AllowRuleEntry)
    (recs : List Recommendation) : List Recommendation :=
  let filtered := filteredRecommendations rules recs
  filtered.take (if expanded then filtered.length else 3)

/-- A chat transcript message, reduced to the role consulted by
`shouldAutoTitle`. -/
structure ChatMessage where
  role : String
deriving DecidableEq, Repr

/-- A conversation header `{ id, title, auto_titled }`; a falsy `id` or
`title` is modelled by the empty string. -/
structure Conversation where
  id : String
  title : String
  autoTitled : Bool
deriving DecidableEq, Repr

/-- Model of `shouldAutoTitle(conversation, messages)` from `chat.js`,
with `requested` standing for the page-session set `autoTitleRequested`. -/
def shouldAutoTitle (requested : List String) (conv : Conversation)
    (msgs : List ChatMessage) : Bool :=
  if conv.id == "" then false
  else if conv.title != "" && conv.title != "New Conversation" then false
  else if conv.autoTitled then false
  else if requested.contains conv.id then false
  else
    msgs.any (fun m => m.role == "user") && msgs.any (fun m => m.role == "assistant")

/-- Outcome of the `fetch` POST of `/chat/{id}/title/auto`: a 2xx
response, a non-2xx response, or a thrown error (network failure or a
later exception inside the `try`). -/
inductive FetchOutcome where
  | ok
  | notOk
  | threw
deriving DecidableEq, Repr

/-- One successful conversation load, as seen by
`maybeAutoTitleConversation`, together with how its auto-title fetch
would end. -/
structure LoadEvent where
  conv : Conversation
  msgs : List ChatMessage
  outcome : FetchOutcome
deriving DecidableEq, Repr

/-- Net effect of `maybeAutoTitleConversation` on the `autoTitleRequested`
set, and whether the POST was issued: when gated in, the id is added
before the fetch and removed again in the `catch` handler when the fetch
threw (the id was not in the set beforehand, so add-then-delete restores
the original set). -/
def stepAutoTitle (requested : List String) (e : LoadEvent) : List String × Bool :=
  if shouldAutoTitle requested e.conv e.msgs then
    (match e.outcome with
     | .threw => requested
     | _ => e.conv.id :: requested, true)
  else (requested, false)

/-- Number of POST `/chat/{id}/title/auto` requests issued for a given
conversation id over a sequence of loads in one page session. -/
def countAutoTitleRequests (requested : List String) (id : String) :
    List LoadEvent → Nat
  | [] => 0
  | e :: es =>
    let step := stepAutoTitle requested e
    (if step.2 && e.conv.id == id then 1 else 0) + countAutoTitleRequests step.1 id es

/-- The three log-stream channel keys of `logStreams`. -/
inductive LogChannel where
  | crawl
  | ingest
  | jobs
deriving DecidableEq, Repr

/-- State of the SSE log handles: the `logStreams` map (a live handle id
per channel, or `none` for the cleared slot) plus the handles closed so
far. -/
structure StreamerState where
  slots : LogChannel → Option Nat
  closed : List Nat

/-- Model of `closeStream(key)`: when the slot holds a handle, close it
and null the slot; otherwise do nothing. -/
def closeStream (st : StreamerState) (key : LogChannel) : StreamerState :=
  match st.slots key with
  | some h =>
    { slots := fun k => if k = key then none else st.slots k
      closed := h :: st.closed }
  | none => st

/-- Model of `streamLog(jobId, targetId, streamKey)` restricted to the
handle map: close the channel's current handle, then store the newly
opened `EventSource` handle. -/
def streamLog (st : StreamerState) (key : LogChannel) (h : Nat) : StreamerState :=
  let st' := closeStream st key
  { st' with slots := fun k => if k = key then some h else st'.slots k }

/-- Model of the sample window update in `updateIngestProgress`:
`push(now - last)` then `if (length > 10) shift()`. -/
def pushSample (ts : List ℚ) (delta : ℚ) : List ℚ :=
  let ts' := ts ++ [delta]
  if 10 < ts'.length then ts'.tail else ts'

/-- Model of the timestamp bookkeeping in `updateIngestProgress`: when
`done > 0`, record the inter-progress delta (when a previous time exists)
and remember `now`.  `none` models the initial `null` of
`ingestProgressLastTime`. -/
def updateSamples (ts : List ℚ) (lastTime : Option ℚ) (done : ℕ) (now : ℚ) :
    List ℚ × Option ℚ :=
  if 0 < done then
    (match lastTime with
     | some lt => pushSample ts (now - lt)
     | none => ts, some now)
  else (ts, lastTime)

/-- What the ETA line shows. -/
inductive EtaDisplay where
  | estimate (ms : ℚ)
  | complete
  | calculating
deriving DecidableEq, Repr

/-- Model of the ETA branch of `updateIngestProgress` (lines 3102-3112):
with at least 5 samples and work remaining, show `avg × remaining`;
otherwise `Complete` when `done === total && total > 0`, else
`Calculating…`. -/
def etaDisplay (ts : List ℚ) (done total : ℕ) : EtaDisplay :=
  if 5 ≤ ts.length ∧ done < total then
    .estimate ((ts.sum / (ts.length : ℚ)) * ((total : ℚ) - (done : ℚ)))
  else if done = total ∧ 0 < total then .complete
  else .calculating

/-- Model of the progress-bar percent of `updateIngestProgress`
(line 3082): `total ? Math.round((done / total) * 100) : 0`, with
JavaScript `Math.round x = ⌊x + 1/2⌋` matching Mathlib's `round` on `ℚ`. -/
def ingestProgressPct (done total : ℕ) : ℤ :=
  if total = 0 then 0 else round (((done : ℚ) / (total : ℚ)) * 100)

/-! Generic list and character lemmas used by the URL-normalization
proofs. -/

theorem pfx_iff_append (p s : JStr) : pfx p s = true ↔ ∃ t, s = p ++ t := by
  induction p generalizing s with
  | nil => simp [pfx]
  | cons a as ih =>
    cases s with
    | nil => simp [pfx]
    | cons b bs =>
      simp only [pfx, Bool.and_eq_true, beq_iff_eq, ih, List.cons_append, List.cons.injEq]
      constructor
      · rintro ⟨rfl, t, rfl⟩; exact ⟨t, rfl, rfl⟩
      · rintro ⟨t, rfl, rfl⟩; exact ⟨rfl, t, rfl⟩

theorem pfx_append (p t : JStr) : pfx p (p ++ t) = true :=
  (pfx_iff_append p (p ++ t)).mpr ⟨t, rfl⟩

theorem ciPfx_eq_pfx_lower (p s : JStr) : ciPfx p s = pfx (lowerStr p) (lowerStr s) := by
  induction p generalizing s with
  | nil => simp [ciPfx, lowerStr, pfx]
  | cons a as ih =>
    cases s with
    | nil => simp [ciPfx, lowerStr, pfx]
    | cons b bs => simp [ciPfx, lowerStr, pfx, ciEq, ih]

theorem takeWhile_append_of_all {q : Char → Bool} (a t : JStr)
    (ha : ∀ c ∈ a, q c = true) : (a ++ t).takeWhile q = a ++ t.takeWhile q := by
  induction a with
  | nil => simp
  | cons c cs ih =>
    have hc := ha c (List.mem_cons_self c cs)
    simp only [List.cons_append, List.takeWhile_cons, hc, if_true]
    rw [ih (fun x hx => ha x (List.mem_cons_of_mem c hx))]

theorem takeWhile_append_cons {q : Char → Bool} (a : JStr) (x : Char) (t : JStr)
    (ha : ∀ c ∈ a, q c = true) (hx : q x = false) :
    (a ++ x :: t).takeWhile q = a := by
  rw [takeWhile_append_of_all a (x :: t) ha]
  simp [List.takeWhile_cons, hx]

theorem dropWhile_append_cons {q : Char → Bool} (a : JStr) (x : Char) (t : JStr)
    (ha : ∀ c ∈ a, q c = true) (hx : q x = false) :
    (a ++ x :: t).dropWhile q = x :: t := by
  induction a with
  | nil => simp [List.dropWhile_cons, hx]
  | cons c cs ih =>
    have hc := ha c (List.mem_cons_self c cs)
    simp only [List.cons_append, List.dropWhile_cons, hc, if_true]
    exact ih (fun y hy => ha y (List.mem_cons_of_mem c hy))

theorem mem_takeWhile_sat {q : Char → Bool} (l : JStr) :
    ∀ c ∈ l.takeWhile q, q c = true := by
  induction l with
  | nil => simp
  | cons a as ih =>
    intro c hc
    by_cases ha : q a
    · simp only [List.takeWhile_cons, ha, if_true] at hc
      rcases List.mem_cons.mp hc with rfl | hc
      · exact ha
      · exact ih c hc
    · simp only [List.takeWhile_cons, ha] at hc
      simp at hc

theorem takeWhile_eq_self_of_all {q : Char → Bool} (l : JStr)
    (h : ∀ c ∈ l, q c = true) : l.takeWhile q = l := by
  induction l with
  | nil => rfl
  | cons a as ih =>
    simp only [List.takeWhile_cons, h a (List.mem_cons_self a as), if_true]
    rw [ih (fun c hc => h c (List.mem_cons_of_mem a hc))]

theorem char_toNat_ofNat_valid (n : Nat) (h : n.isValidChar) :
    (Char.ofNat n).toNat = n := by
  simp [Char.ofNat, h, Char.ofNatAux, Char.toNat]
  rfl

theorem toLower_fix (c p : Char)
    (hp : p.toNat < 65 ∨ (90 < p.toNat ∧ p.toNat < 97) ∨ 122 < p.toNat) :
    c.toLower = p ↔ c = p := by
  constructor
  · intro h
    simp only [Char.toLower] at h
    split at h
    · next hc =>
      have h2 := congrArg Char.toNat h
      rw [char_toNat_ofNat_valid _ (by constructor; omega)] at h2
      omega
    · exact h
  · intro h
    subst h
    simp only [Char.toLower]
    split
    · next hc => omega
    · rfl

theorem isAlpha_iff (c : Char) :
    c.isAlpha = true ↔ (65 ≤ c.toNat ∧ c.toNat ≤ 90) ∨ (97 ≤ c.toNat ∧ c.toNat ≤ 122) := by
  simp [Char.isAlpha, Char.isUpper, Char.isLower, Char.toNat, Char.le_def, UInt32.le_def,
    BitVec.le_def, UInt32.toNat]

theorem alpha_of_toLower (c p : Char) (hp1 : 97 ≤ p.toNat) (hp2 : p.toNat ≤ 122)
    (h : c.toLower = p) : c.isAlpha = true := by
  simp only [Char.toLower] at h
  split at h
  · next hc => exact (isAlpha_iff c).mpr (Or.inl ⟨hc.1, hc.2⟩)
  · subst h; exact (isAlpha_iff c).mpr (Or.inr ⟨hp1, hp2⟩)

theorem map_toLower_cons (v : JStr) (c : Char) (m : JStr)
    (h : lowerStr v = c :: m) :
    ∃ a v', v = a :: v' ∧ a.toLower = c ∧ lowerStr v' = m := by
  cases v with
  | nil => simp [lowerStr] at h
  | cons a v' =>
    simp only [lowerStr, List.map_cons, List.cons.injEq] at h
    exact ⟨a, v', rfl, h.1, h.2⟩

/-- Structural invariant of the strings produced inside `finishNormalize`:
a (case-arbitrary) `http`/`https` scheme followed by `://`. -/
def HttpShape (s : JStr) : Prop :=
  ∃ sch rest,
    (lowerStr sch = ['h', 't', 't', 'p'] ∨ lowerStr sch = ['h', 't', 't', 'p', 's'])
    ∧ s = sch ++ ':' :: '/' :: '/' :: rest

/-- Invariant after the fragment-strip step: scheme shape, the `https`
variant whenever `allowHttp` is false, and no `#` anywhere. -/
def NormShape (allowHttp : Bool) (s : JStr) : Prop :=
  ∃ sch rest,
    (lowerStr sch = ['h', 't', 't', 'p'] ∨ lowerStr sch = ['h', 't', 't', 'p', 's'])
    ∧ (allowHttp = false → lowerStr sch = ['h', 't', 't', 'p', 's'])
    ∧ (∀ c ∈ s, (c != '#') = true)
    ∧ s = sch ++ ':' :: '/' :: '/' :: rest

theorem httpShape_of_ciPfx (v : JStr) (h : startsWithHttpSchemeCI v = true) :
    HttpShape v := by
  have hcolon : ∀ c : Char, c.toLower = ':' → c = ':' := fun c hc =>
    (toLower_fix c ':' (by decide)).mp hc
  have hslash : ∀ c : Char, c.toLower = '/' → c = '/' := fun c hc =>
    (toLower_fix c '/' (by decide)).mp hc
  rcases Bool.or_eq_true _ _ |>.mp h with h1 | h1
  · rw [ciPfx_eq_pfx_lower] at h1
    obtain ⟨m, hm⟩ := (pfx_iff_append _ _).mp h1
    rw [show lowerStr httpP = 'h' :: 't' :: 't' :: 'p' :: ':' :: '/' :: '/' :: [] by decide] at hm
    obtain ⟨a, v1, rfl, ha, hm⟩ := map_toLower_cons _ _ _ hm
    obtain ⟨b, v2, rfl, hb, hm⟩ := map_toLower_cons _ _ _ hm
    obtain ⟨c, v3, rfl, hc, hm⟩ := map_toLower_cons _ _ _ hm
    obtain ⟨d, v4, rfl, hd, hm⟩ := map_toLower_cons _ _ _ hm
    obtain ⟨e, v5, rfl, he, hm⟩ := map_toLower_cons _ _ _ hm
    obtain ⟨f, v6, rfl, hf, hm⟩ := map_toLower_cons _ _ _ hm
    obtain ⟨g, v7, rfl, hg, hm⟩ := map_toLower_cons _ _ _ hm
    refine ⟨[a, b, c, d], v7, Or.inl ?_, ?_⟩
    · simp [lowerStr, ha, hb, hc, hd]
    · rw [hcolon e he, hslash f hf, hslash g hg]
      rfl
  · rw [ciPfx_eq_pfx_lower] at h1
    obtain ⟨m, hm⟩ := (pfx_iff_append _ _).mp h1
    rw [show lowerStr httpsP = 'h' :: 't' :: 't' :: 'p' :: 's' :: ':' :: '/' :: '/' :: [] by decide] at hm
    obtain ⟨a, v1, rfl, ha, hm⟩ := map_toLower_cons _ _ _ hm
    obtain ⟨b, v2, rfl, hb, hm⟩ := map_toLower_cons _ _ _ hm
    obtain ⟨c, v3, rfl, hc, hm⟩ := map_toLower_cons _ _ _ hm
    obtain ⟨d, v4, rfl, hd, hm⟩ := map_toLower_cons _ _ _ hm
    obtain ⟨e, v5, rfl, he, hm⟩ := map_toLower_cons _ _ _ hm
    obtain ⟨f, v6, rfl, hf, hm⟩ := map_toLower_cons _ _ _ hm
    obtain ⟨g, v7, rfl, hg, hm⟩ := map_toLower_cons _ _ _ hm
    obtain ⟨i, v8, rfl, hi, hm⟩ := map_toLower_cons _ _ _ hm
    refine ⟨[a, b, c, d, e], v8, Or.inr ?_, ?_⟩
    · simp [lowerStr, ha, hb, hc, hd, he]
    · rw [hcolon f hf, hslash g hg, hslash i hi]
      rfl

theorem httpShape_stepScheme (v : JStr) (f : Bool) : HttpShape (stepScheme v f) := by
  unfold stepScheme
  split
  · next h => exact httpShape_of_ciPfx v h
  · cases f with
    | true =>
      exact ⟨['h', 't', 't', 'p'], v, Or.inl (by decide), by simp [httpP]⟩
    | false =>
      exact ⟨['h', 't', 't', 'p', 's'], v, Or.inr (by decide), by simp [httpsP]⟩

theorem ciPfx_of_httpShape (s : JStr) (hs : HttpShape s) :
    startsWithHttpSchemeCI s = true := by
  obtain ⟨sch, rest, hvar, rfl⟩ := hs
  unfold startsWithHttpSchemeCI
  rcases hvar with hv | hv
  · have : ciPfx httpP (sch ++ ':' :: '/' :: '/' :: rest) = true := by
      rw [ciPfx_eq_pfx_lower]
      rw [show lowerStr (sch ++ ':' :: '/' :: '/' :: rest)
          = lowerStr sch ++ ':' :: '/' :: '/' :: lowerStr rest by simp [lowerStr]]
      rw [hv]
      rw [show lowerStr httpP = httpP by decide]
      exact pfx_append httpP (lowerStr rest)
    simp [this]
  · have : ciPfx httpsP (sch ++ ':' :: '/' :: '/' :: rest) = true := by
      rw [ciPfx_eq_pfx_lower]
      rw [show lowerStr (sch ++ ':' :: '/' :: '/' :: rest)
          = lowerStr sch ++ ':' :: '/' :: '/' :: lowerStr rest by simp [lowerStr]]
      rw [hv]
      rw [show lowerStr httpsP = httpsP by decide]
      exact pfx_append httpsP (lowerStr rest)
    simp [this]

theorem not_httpOnly_of_httpsVariant (sch rest : JStr)
    (hv : lowerStr sch = ['h', 't', 't', 'p', 's']) :
    startsWithHttpOnlyCI (sch ++ ':' :: '/' :: '/' :: rest) = false := by
  unfold startsWithHttpOnlyCI
  rw [ciPfx_eq_pfx_lower]
  rw [show lowerStr (sch ++ ':' :: '/' :: '/' :: rest)
      = lowerStr sch ++ ':' :: '/' :: '/' :: lowerStr rest by simp [lowerStr]]
  rw [hv, show lowerStr httpP = httpP by decide]
  simp [pfx, httpP]

theorem ne_hash_of_lower_http (sch : JStr)
    (hvar : lowerStr sch = ['h', 't', 't', 'p'] ∨ lowerStr sch = ['h', 't', 't', 'p', 's']) :
    ∀ c ∈ sch, (c != '#') = true := by
  intro c hc
  have hmem : c.toLower ∈ lowerStr sch := List.mem_map_of_mem _ hc
  simp only [bne_iff_ne, ne_eq]
  intro hch
  subst hch
  rcases hvar with hv | hv <;> rw [hv] at hmem <;>
    simp [show ('#' : Char).toLower = '#' by decide] at hmem

theorem normShape_of_parts (f : Bool) (sch rest : JStr)
    (hvar : lowerStr sch = ['h', 't', 't', 'p'] ∨ lowerStr sch = ['h', 't', 't', 'p', 's'])
    (hf : f = false → lowerStr sch = ['h', 't', 't', 'p', 's']) :
    NormShape f (stepHash (sch ++ ':' :: '/' :: '/' :: rest)) := by
  have hsch := ne_hash_of_lower_http sch hvar
  have hall : ∀ c ∈ sch ++ [':', '/', '/'], (c != '#') = true := by
    intro c hc
    rcases List.mem_append.mp hc with hc | hc
    · exact hsch c hc
    · fin_cases hc <;> decide
  have hstep : stepHash (sch ++ ':' :: '/' :: '/' :: rest)
      = sch ++ ':' :: '/' :: '/' :: rest.takeWhile (fun c => c != '#') := by
    unfold stepHash
    rw [show sch ++ ':' :: '/' :: '/' :: rest = (sch ++ [':', '/', '/']) ++ rest by simp]
    rw [takeWhile_append_of_all _ _ hall]
    simp
  refine ⟨sch, rest.takeWhile (fun c => c != '#'), hvar, hf, ?_, hstep⟩
  rw [hstep]
  intro c hc
  rcases List.mem_append.mp hc with hc | hc
  · exact hsch c hc
  · rcases List.mem_cons.mp hc with rfl | hc
    · decide
    · rcases List.mem_cons.mp hc with rfl | hc
      · decide
      · rcases List.mem_cons.mp hc with rfl | hc
        · decide
        · exact mem_takeWhile_sat rest c hc

theorem normShape_after (v : JStr) (f : Bool) :
    NormShape f (stepHash (stepHttps (stepScheme v f) f)) := by
  obtain ⟨sch, rest, hvar, heq⟩ := httpShape_stepScheme v f
  cases f with
  | true =>
    have : stepHttps (stepScheme v true) true = stepScheme v true := by
      unfold stepHttps
      simp
    rw [this, heq]
    exact normShape_of_parts true sch rest hvar (by simp)
  | false =>
    rw [heq]
    unfold stepHttps
    simp only [Bool.not_false, Bool.true_and]
    by_cases hci : startsWithHttpOnlyCI (sch ++ ':' :: '/' :: '/' :: rest)
    · rw [if_pos hci]
      have hdrop : httpsP ++ (sch ++ ':' :: '/' :: '/' :: rest).drop 7
          = ['h', 't', 't', 'p', 's'] ++ ':' :: '/' :: '/'
            :: (sch ++ ':' :: '/' :: '/' :: rest).drop 7 := by
        simp [httpsP]
      rw [hdrop]
      exact normShape_of_parts false _ _ (Or.inr (by decide)) (fun _ => by decide)
    · rw [if_neg hci]
      have hvs : lowerStr sch = ['h', 't', 't', 'p', 's'] := by
        rcases hvar with hv | hv
        · exfalso
          apply hci
          unfold startsWithHttpOnlyCI
          rw [ciPfx_eq_pfx_lower]
          rw [show lowerStr (sch ++ ':' :: '/' :: '/' :: rest)
              = lowerStr sch ++ ':' :: '/' :: '/' :: lowerStr rest by simp [lowerStr]]
          rw [hv, show lowerStr httpP = httpP by decide]
          exact pfx_append httpP (lowerStr rest)
        · exact hv
      exact normShape_of_parts false sch rest hvar (fun _ => hvs)

theorem normShape_stepSlash (s : JStr) (f : Bool) (h : NormShape f s) :
    NormShape f (stepSlash s) := by
  obtain ⟨sch, rest, hvar, hf, hnh, heq⟩ := h
  unfold stepSlash
  split
  · refine ⟨sch, rest ++ ['/'], hvar, hf, ?_, by simp [heq]⟩
    intro c hc
    rcases List.mem_append.mp hc with hc | hc
    · exact hnh c hc
    · simp at hc
      subst hc
      decide
  · exact ⟨sch, rest, hvar, hf, hnh, heq⟩

theorem normShape_finish (v : JStr) (f : Bool) : NormShape f (finishNormalize v f) :=
  normShape_stepSlash _ f (normShape_after v f)

theorem schemeChar_of_lower_mem (c : Char) (hc : c.toLower ∈ (['t', 't', 'p', 's'] : JStr)) :
    isSchemeChar c = true := by
  have halpha : c.isAlpha = true := by
    simp only [List.mem_cons, List.not_mem_nil, or_false] at hc
    rcases hc with h | h | h | h <;>
      exact alpha_of_toLower c _ (by decide) (by decide) h
  simp [isSchemeChar, halpha]

theorem matchScheme_of_normShape (s : JStr) (f : Bool) (h : NormShape f s) :
    ∃ sch, matchScheme s = some sch ∧ schemeIsHttp sch = true := by
  obtain ⟨sch, rest, hvar, _, _, rfl⟩ := h
  have hsh : schemeIsHttp sch = true := by
    rcases hvar with hv | hv <;>
      simp [schemeIsHttp, hv, show ("http".toList : JStr) = ['h', 't', 't', 'p'] from rfl,
        show ("https".toList : JStr) = ['h', 't', 't', 'p', 's'] from rfl]
  rcases hvar with hv | hv
  · obtain ⟨a, sch', rfl, ha, hm⟩ := map_toLower_cons sch 'h' _ hv
    have hstart : isSchemeStart a = true := by
      unfold isSchemeStart
      exact alpha_of_toLower a 'h' (by decide) (by decide) ha
    have hrun : ∀ c ∈ sch', isSchemeChar c = true := by
      intro c hc
      have : c.toLower ∈ lowerStr sch' := List.mem_map_of_mem _ hc
      rw [hm] at this
      apply schemeChar_of_lower_mem
      simp only [List.mem_cons, List.not_mem_nil, or_false]
      simp at this
      tauto
    refine ⟨a :: sch', ?_, hsh⟩
    unfold matchScheme
    rw [show (a :: sch') ++ ':' :: '/' :: '/' :: rest
        = a :: (sch' ++ ':' :: '/' :: '/' :: rest) by simp]
    simp only [hstart, if_true]
    rw [takeWhile_append_cons sch' ':' _ hrun (by decide),
      dropWhile_append_cons sch' ':' _ hrun (by decide)]
    simp [pfx]
  · obtain ⟨a, sch', rfl, ha, hm⟩ := map_toLower_cons sch 'h' _ hv
    have hstart : isSchemeStart a = true := by
      unfold isSchemeStart
      exact alpha_of_toLower a 'h' (by decide) (by decide) ha
    have hrun : ∀ c ∈ sch', isSchemeChar c = true := by
      intro c hc
      have : c.toLower ∈ lowerStr sch' := List.mem_map_of_mem _ hc
      rw [hm] at this
      apply schemeChar_of_lower_mem
      simp only [List.mem_cons, List.not_mem_nil, or_false]
      simp at this
      tauto
    refine ⟨a :: sch', ?_, hsh⟩
    unfold matchScheme
    rw [show (a :: sch') ++ ':' :: '/' :: '/' :: rest
        = a :: (sch' ++ ':' :: '/' :: '/' :: rest) by simp]
    simp only [hstart, if_true]
    rw [takeWhile_append_cons sch' ':' _ hrun (by decide),
      dropWhile_append_cons sch' ':' _ hrun (by decide)]
    simp [pfx]

theorem stepScheme_of_normShape (s : JStr) (f g : Bool) (h : NormShape f s) :
    stepScheme s g = s := by
  obtain ⟨sch, rest, hvar, _, _, rfl⟩ := h
  unfold stepScheme
  rw [if_pos (ciPfx_of_httpShape _ ⟨sch, rest, hvar, rfl⟩)]

theorem stepHttps_of_normShape (s : JStr) (f : Bool) (h : NormShape f s) :
    stepHttps s f = s := by
  obtain ⟨sch, rest, hvar, hf, _, rfl⟩ := h
  unfold stepHttps
  cases f with
  | true => simp
  | false =>
    rw [not_httpOnly_of_httpsVariant sch rest (hf rfl)]
    simp

theorem stepHash_of_normShape (s : JStr) (f : Bool) (h : NormShape f s) :
    stepHash s = s := by
  obtain ⟨_, _, _, _, hnh, rfl⟩ := h
  exact takeWhile_eq_self_of_all _ hnh

theorem stepSlash_idem (s : JStr) : stepSlash (stepSlash s) = stepSlash s := by
  unfold stepSlash
  split
  · next h =>
    have hend : endsWithSlash (s ++ ['/']) = true := by
      simp [endsWithSlash, List.getLast?_concat]
    rw [hend]
    simp
  · next h => rfl

theorem isEmpty_of_normShape (s : JStr) (f : Bool) (h : NormShape f s) :
    s.isEmpty = false := by
  obtain ⟨sch, rest, hvar, _, _, rfl⟩ := h
  cases sch with
  | nil =>
    rcases hvar with hv | hv <;> simp [lowerStr] at hv
  | cons a t => simp

theorem jsTrim_nil : jsTrim [] = [] := rfl

theorem normalizeUrlRow_finish_fix (v : JStr) (f : Bool)
    (hu : jsTrim (finishNormalize v f) = finishNormalize v f) :
    normalizeUrlRow (finishNormalize v f) f = .ok (finishNormalize v f) := by
  have hshape : NormShape f (finishNormalize v f) := normShape_finish v f
  obtain ⟨schm, hms, hsi⟩ := matchScheme_of_normShape _ f hshape
  have hne := isEmpty_of_normShape _ f hshape
  have hfix : finishNormalize (finishNormalize v f) f = finishNormalize v f := by
    have h1 : stepScheme (finishNormalize v f) f = finishNormalize v f :=
      stepScheme_of_normShape _ f f hshape
    have h2 : stepHttps (finishNormalize v f) f = finishNormalize v f :=
      stepHttps_of_normShape _ f hshape
    have h3 : stepHash (finishNormalize v f) = finishNormalize v f :=
      stepHash_of_normShape _ f hshape
    show stepSlash (stepHash (stepHttps (stepScheme (finishNormalize v f) f) f))
        = finishNormalize v f
    rw [h1, h2, h3]
    exact stepSlash_idem (stepHash (stepHttps (stepScheme v f) f))
  simp only [normalizeUrlRow, hu, hne, Bool.false_eq_true, if_false, hms, hsi, if_true, hfix]

/-- C4 counterexample: `normalizeUrlRow` is not idempotent.  On the input
`"https://a/b #f"` the fragment strip leaves a trailing space, the URL
parse of `"https://a/b "` fails (space in the host position), and the
function returns `"https://a/b "`; re-running trims that space away and
returns `"https://a/b"`, a different string. -/
theorem normalizeUrlRow_not_idempotent :
    normalizeUrlRow ("https://a/b #f".toList) false = .ok ("https://a/b ".toList)
    ∧ normalizeUrlRow ("https://a/b ".toList) false = .ok ("https://a/b".toList)
    ∧ ("https://a/b".toList : JStr) ≠ ("https://a/b ".toList : JStr) := by
  refine ⟨by decide, by decide, by decide⟩

/-- C4 (amended): `normalizeUrlRow` is idempotent on every input whose
first normalization result carries no leading or trailing whitespace
(equivalently, is fixed by `trim`): whenever `normalizeUrlRow S f`
returns `u` with `u.trim() === u`, `normalizeUrlRow(u, f)` returns `u`
again.  The sole failure mode of full idempotence is a trailing
whitespace character exposed by the fragment strip. -/
theorem normalizeUrlRow_idempotent_on_trimmed :
    ∀ (S : JStr) (f : Bool) (u : JStr),
      normalizeUrlRow S f = .ok u → jsTrim u = u →
      normalizeUrlRow u f = .ok u := by
  intro S f u h1 h2
  unfold normalizeUrlRow at h1
  by_cases he : (jsTrim S).isEmpty
  · rw [if_pos he] at h1
    cases h1
    rfl
  · rw [if_neg he] at h1
    cases hm : matchScheme (jsTrim S) with
    | some sch =>
      rw [hm] at h1
      dsimp only at h1
      by_cases hs : schemeIsHttp sch = true
      · rw [if_pos hs] at h1
        cases h1
        exact normalizeUrlRow_finish_fix (jsTrim S) f h2
      · rw [if_neg hs] at h1
        cases h1
    | none =>
      rw [hm] at h1
      dsimp only at h1
      cases h1
      exact normalizeUrlRow_finish_fix (jsTrim S) f h2

/-- C4 witness: the amended idempotence theorem applied at the concrete
input `"x.com"` with `allowHttp = false`, whose normalization
`"https://x.com/"` is trim-stable. -/
theorem normalizeUrlRow_idempotent_on_trimmed_witness :
    normalizeUrlRow ("https://x.com/".toList) false = .ok ("https://x.com/".toList) :=
  normalizeUrlRow_idempotent_on_trimmed ("x.com".toList) false ("https://x.com/".toList)
    (by decide) (by decide)

/-- C1 counterexample: the per-row edit save path does not enforce
default-to-web.  A rule whose five type flags are all false is sent by
`saveAllowedUrlRow` with `types` unchanged, so the persisted payload has
`types.web = false`. -/
theorem saveAllowedUrlRow_no_default_web :
    (saveAllowedUrlRowPayload
      ⟨some "r7", "https://x.com/", some "prefix", some emptyTypes, some false, none⟩).types
      = emptyTypes
    ∧ emptyTypes.web = false := by
  exact ⟨rfl, rfl⟩

/-- C1 (amended): default-to-web enforcement holds on the add-rule path --
`addAllowFromInput` forces `types.web = true` whenever all five checkbox
flags are false -- but the per-row edit save (`saveAllowedUrlRow`) sends
`rule.types` through unchanged, so the enforcement does not hold on that
save path. -/
theorem addAllow_default_web_enforcement :
    (∀ (pattern matchMode : String) (web pdf docx xlsx pptx allowHttp : Bool),
      web = false → pdf = false → docx = false → xlsx = false → pptx = false →
      (addAllowPayload pattern matchMode web pdf docx xlsx pptx allowHttp).types.web = true)
    ∧ (∀ (rule : AllowRuleState) (t : TypeFlags),
      rule.types = some t → (saveAllowedUrlRowPayload rule).types = t) := by
  constructor
  · intro pattern matchMode web pdf docx xlsx pptx allowHttp hw hp hd hx hq
    subst hw; subst hp; subst hd; subst hx; subst hq
    rfl
  · intro rule t ht
    simp [saveAllowedUrlRowPayload, ht]

/-- C1 witness: the enforcement theorem applied to a concrete all-false
add-rule submission. -/
theorem addAllow_default_web_enforcement_witness :
    (addAllowPayload "https://x.com/" "prefix" false false false false false false).types.web
      = true :=
  addAllow_default_web_enforcement.1 "https://x.com/" "prefix"
    false false false false false false rfl rfl rfl rfl rfl

/-- C2 counterexample: a stored sidebar width outside `[240, 520]` is
clamped to the nearest bound, not replaced by the default: `600` reads
back as `520` and `100` as `240`, neither of which is `320`. -/
theorem getStoredWidth_out_of_range_not_default :
    getStoredWidth (some 600) = 520 ∧ getStoredWidth (some 100) = 240
    ∧ (520 : Int) ≠ 320 ∧ (240 : Int) ≠ 320 := by
  refine ⟨by decide, by decide, by decide, by decide⟩

/-- C2 (amended): reading the stored sidebar width clamps every parsed
value to `[240, 520]` (out-of-range values go to the nearest bound); the
default `320` is returned only when the stored value does not parse as an
integer (`Number.parseInt` gives `NaN`).  The result always lies in
`[240, 520]`. -/
theorem getStoredWidth_clamps :
    getStoredWidth none = DEFAULT_SIDEBAR_WIDTH
    ∧ (∀ v : Int, getStoredWidth (some v) = min MAX_SIDEBAR_WIDTH (max MIN_SIDEBAR_WIDTH v))
    ∧ (∀ s : Option Int,
        MIN_SIDEBAR_WIDTH ≤ getStoredWidth s ∧ getStoredWidth s ≤ MAX_SIDEBAR_WIDTH) := by
  refine ⟨rfl, fun v => rfl, fun s => ?_⟩
  cases s with
  | none => exact ⟨by decide, by decide⟩
  | some v =>
    constructor <;>
      simp [getStoredWidth, MIN_SIDEBAR_WIDTH, MAX_SIDEBAR_WIDTH]

/-- C7: for every input whose leading scheme is not `http`/`https`,
`addSeedFromInput` raises the alert built from the offending scheme and
leaves the seed list unchanged. -/
theorem addSeed_scheme_rejection :
    ∀ (seeds : List Seed) (input : JStr) (allowHttp : Bool) (sch : JStr),
      matchScheme (jsTrim input) = some sch → schemeIsHttp sch = false →
      addSeedFromInput seeds input allowHttp = (seeds, some (invalidSchemeMsg sch)) := by
  intro seeds input allowHttp sch hm hs
  have hne : (jsTrim input).isEmpty = false := by
    cases h : jsTrim input with
    | nil => rw [h] at hm; simp [matchScheme] at hm
    | cons a t => simp
  unfold addSeedFromInput normalizeUrlRow
  simp only [hne, Bool.false_eq_true, if_false, hm, hs]

/-- C7 witness: the scheme-rejection theorem applied to the seed input
`"ftp://x.com"`, producing the literal alert text of the specification. -/
theorem addSeed_scheme_rejection_witness :
    addSeedFromInput [] ("ftp://x.com".toList) false
      = ([], some ("Invalid scheme \"ftp\". Only http:// and https:// are allowed.".toList)) :=
  (addSeed_scheme_rejection [] ("ftp://x.com".toList) false ("ftp".toList)
    (by decide) (by decide)).trans (by decide)

theorem isHighPriorityFinding_iff (item : Finding) :
    isHighPriorityFinding item = true ↔ highPriorityClaim item := by
  unfold isHighPriorityFinding highPriorityClaim
  dsimp only
  split_ifs with h1 h2 h3 h4 h5 <;> simp_all <;> tauto

/-- C3: a finding lands in the high-priority section exactly when its
lowercased severity is `high` or its lowercased reason contains one of
the nine trigger substrings, and in the lower-priority section exactly
otherwise (for findings of the rendered list). -/
theorem validation_priority_partition :
    ∀ (l : List Finding) (item : Finding),
      (item ∈ highPriorityOf l ↔ item ∈ l ∧ highPriorityClaim item)
      ∧ (item ∈ lowerPriorityOf l ↔ item ∈ l ∧ ¬ highPriorityClaim item) := by
  intro l item
  have hhigh : item ∈ highPriorityOf l ↔ item ∈ l ∧ highPriorityClaim item := by
    unfold highPriorityOf
    rw [List.mem_filter, isHighPriorityFinding_iff]
  refine ⟨hhigh, ?_⟩
  unfold lowerPriorityOf
  rw [List.mem_filter]
  have hcontains : ((highPriorityOf l).contains item = true) ↔ item ∈ highPriorityOf l := by
    simp [List.contains]
  constructor
  · rintro ⟨hmem, hnc⟩
    refine ⟨hmem, fun hcl => ?_⟩
    have : item ∈ highPriorityOf l := hhigh.mpr ⟨hmem, hcl⟩
    rw [Bool.not_eq_true', ← Bool.not_eq_true] at hnc
    exact hnc (hcontains.mpr this)
  · rintro ⟨hmem, hncl⟩
    refine ⟨hmem, ?_⟩
    rw [Bool.not_eq_true', ← Bool.not_eq_true]
    intro hc
    exact hncl ((hhigh.mp (hcontains.mp hc)).2)

/-- C8: `isUrlAlreadyAllowed` is true exactly when some rule matches the
URL (equality under `exact`, string prefix under `prefix`), and a covered
URL never appears among the rendered (filtered, possibly truncated)
recommendations. -/
theorem url_coverage_and_recommendation_filter :
    ∀ (rules : List AllowRuleEntry) (url : JStr) (recs : List Recommendation)
      (expanded : Bool),
      (∀ r ∈ rules, r.matchMode = "exact" ∨ r.matchMode = "prefix") →
      ((isUrlAlreadyAllowed rules url = true ↔
        ∃ r ∈ rules, (r.matchMode = "exact" ∧ r.pattern = url)
          ∨ (r.matchMode = "prefix" ∧ pfx r.pattern url = true))
      ∧ (isUrlAlreadyAllowed rules url = true →
          ∀ rec ∈ displayedRecommendations expanded rules recs, rec.suggestedUrl ≠ url)) := by
  intro rules url recs expanded hmodes
  constructor
  · unfold isUrlAlreadyAllowed
    rw [List.any_eq_true]
    constructor
    · rintro ⟨r, hr, hcov⟩
      refine ⟨r, hr, ?_⟩
      unfold ruleCovers at hcov
      rcases hmodes r hr with hmode | hmode
      · left
        rw [hmode] at hcov
        simp at hcov
        exact ⟨hmode, hcov⟩
      · right
        rw [hmode] at hcov
        simp at hcov
        exact ⟨hmode, hcov⟩
    · rintro ⟨r, hr, hcase⟩
      refine ⟨r, hr, ?_⟩
      unfold ruleCovers
      rcases hcase with ⟨hmode, hpat⟩ | ⟨hmode, hpfx⟩
      · rw [hmode]
        simp [hpat]
      · rw [hmode]
        simp [hpfx]
  · intro hcov rec hrec
    have hmem : rec ∈ filteredRecommendations rules recs := by
      unfold displayedRecommendations at hrec
      exact List.take_subset _ _ hrec
    unfold filteredRecommendations at hmem
    rw [List.mem_filter] at hmem
    intro heq
    rw [heq] at hmem
    rw [hcov] at hmem
    simp at hmem

/-- C8 witness: with the single prefix rule `https://x.com/`, the URL
`https://x.com/a` is covered, and a rendered recommendation (here
`https://y.com/`) cannot carry that URL. -/
theorem url_coverage_witness :
    (⟨"https://y.com/".toList, 2⟩ : Recommendation).suggestedUrl
      ≠ ("https://x.com/a".toList : JStr) :=
  (url_coverage_and_recommendation_filter
      [⟨"https://x.com/".toList, "prefix"⟩] ("https://x.com/a".toList)
      [⟨"https://y.com/".toList, 2⟩] true
      (by decide)).2 (by decide) ⟨"https://y.com/".toList, 2⟩ (by decide)

/-- C9: the log-stream map keeps at most one live handle per channel:
`closeStream` is idempotent and leaves the slot `null`, and `streamLog`
closes any handle occupying the channel before installing the new one,
which then owns the slot. -/
theorem log_stream_single_handle :
    (∀ (st : StreamerState) (k : LogChannel),
      closeStream (closeStream st k) k = closeStream st k
      ∧ (closeStream st k).slots k = none)
    ∧ (∀ (st : StreamerState) (k : LogChannel) (h : Nat),
      (streamLog st k h).slots k = some h)
    ∧ (∀ (st : StreamerState) (k : LogChannel) (h h₀ : Nat),
      st.slots k = some h₀ → h₀ ∈ (streamLog st k h).closed) := by
  have hnone : ∀ (st : StreamerState) (k : LogChannel), (closeStream st k).slots k = none := by
    intro st k
    unfold closeStream
    cases hs : st.slots k with
    | none => exact hs
    | some h => simp
  refine ⟨fun st k => ⟨?_, hnone st k⟩, fun st k h => ?_, fun st k h h₀ hs => ?_⟩
  · have hn := hnone st k
    generalize closeStream st k = X at hn ⊢
    unfold closeStream
    rw [hn]
  · unfold streamLog
    simp
  · unfold streamLog closeStream
    rw [hs]
    simp

/-- C9 witness: the prior-handle-closed conjunct applied to a concrete
state holding handle `7` on the `crawl` channel. -/
theorem log_stream_single_handle_witness :
    7 ∈ (streamLog ⟨fun _ => some 7, []⟩ LogChannel.crawl 9).closed :=
  log_stream_single_handle.2.2 ⟨fun _ => some 7, []⟩ LogChannel.crawl 9 7 rfl

theorem shouldAutoTitle_gate (requested : List String) (conv : Conversation)
    (msgs : List ChatMessage) (h : shouldAutoTitle requested conv msgs = true) :
    conv.id ≠ "" ∧ (conv.title = "" ∨ conv.title = "New Conversation")
    ∧ conv.autoTitled = false ∧ conv.id ∉ requested
    ∧ (∃ m ∈ msgs, m.role = "user") ∧ (∃ m ∈ msgs, m.role = "assistant") := by
  unfold shouldAutoTitle at h
  split_ifs at h with h1 h2 h3 h4
  simp only [beq_iff_eq] at h1
  simp only [Bool.and_eq_true, bne_iff_ne, ne_eq] at h2
  rw [Bool.and_eq_true, List.any_eq_true, List.any_eq_true] at h
  refine ⟨h1, ?_, by simpa using h3, by simpa [List.contains] using h4, ?_, ?_⟩
  · by_cases ht : conv.title = ""
    · exact Or.inl ht
    · right
      by_contra hne
      exact h2 ⟨ht, hne⟩
  · obtain ⟨m, hm, hr⟩ := h.1
    exact ⟨m, hm, by simpa using hr⟩
  · obtain ⟨m, hm, hr⟩ := h.2
    exact ⟨m, hm, by simpa using hr⟩

theorem countAutoTitleRequests_eq_zero (id : String) (events : List LoadEvent) :
    ∀ requested : List String, id ∈ requested →
      countAutoTitleRequests requested id events = 0 := by
  induction events with
  | nil => intro requested _; rfl
  | cons e es ih =>
    intro requested hid
    unfold countAutoTitleRequests stepAutoTitle
    cases hgate : shouldAutoTitle requested e.conv e.msgs with
    | false =>
      simp only [if_neg (by simp [hgate] : ¬ shouldAutoTitle requested e.conv e.msgs = true)]
      simpa using ih requested hid
    | true =>
      have hspec := shouldAutoTitle_gate requested e.conv e.msgs hgate
      have hne : e.conv.id ≠ id := fun heq => hspec.2.2.2.1 (heq ▸ hid)
      simp only [if_pos hgate]
      cases e.outcome with
      | threw => simpa [hne] using ih requested hid
      | ok => simpa [hne] using ih (e.conv.id :: requested) (List.mem_cons_of_mem _ hid)
      | notOk => simpa [hne] using ih (e.conv.id :: requested) (List.mem_cons_of_mem _ hid)

/-- C5 counterexample: when the first auto-title fetch throws (network
error), the `catch` handler removes the id from `autoTitleRequested`, so
a later load of the same conversation issues the POST a second time in
the same page session: this trace issues it twice. -/
theorem auto_title_issued_twice :
    countAutoTitleRequests [] "c"
      [⟨⟨"c", "", false⟩, [⟨"user"⟩, ⟨"assistant"⟩], .threw⟩,
       ⟨⟨"c", "", false⟩, [⟨"user"⟩, ⟨"assistant"⟩], .ok⟩] = 2 := by
  decide

/-- C5 (amended): the POST is issued only when the gating conditions hold
(title empty or `New Conversation`, `auto_titled` unset, id not yet in
the request set, and at least one user and one assistant message), and it
is issued at most once per conversation id per page session provided no
auto-title fetch throws; a thrown fetch removes the id from the set and
deliberately allows a retry on a later load. -/
theorem auto_title_at_most_once :
    (∀ (requested : List String) (conv : Conversation) (msgs : List ChatMessage),
      shouldAutoTitle requested conv msgs = true →
        (conv.title = "" ∨ conv.title = "New Conversation") ∧ conv.autoTitled = false
        ∧ conv.id ∉ requested
        ∧ (∃ m ∈ msgs, m.role = "user") ∧ (∃ m ∈ msgs, m.role = "assistant"))
    ∧ (∀ (events : List LoadEvent) (requested : List String) (id : String),
      (∀ e ∈ events, e.outcome ≠ .threw) →
      countAutoTitleRequests requested id events ≤ 1) := by
  constructor
  · intro requested conv msgs h
    have hspec := shouldAutoTitle_gate requested conv msgs h
    exact ⟨hspec.2.1, hspec.2.2.1, hspec.2.2.2.1, hspec.2.2.2.2.1, hspec.2.2.2.2.2⟩
  · intro events
    induction events with
    | nil => intro requested id _; simp [countAutoTitleRequests]
    | cons e es ih =>
      intro requested id hout
      have hout' : ∀ x ∈ es, x.outcome ≠ .threw :=
        fun x hx => hout x (List.mem_cons_of_mem e hx)
      unfold countAutoTitleRequests stepAutoTitle
      cases hgate : shouldAutoTitle requested e.conv e.msgs with
      | false =>
        simp only [if_neg (by simp [hgate] : ¬ shouldAutoTitle requested e.conv e.msgs = true)]
        simpa using ih requested id hout'
      | true =>
        simp only [if_pos hgate]
        cases ho : e.outcome with
        | threw => exact absurd ho (hout e (List.mem_cons_self e es))
        | ok =>
          by_cases hid : e.conv.id = id
          · subst hid
            have : countAutoTitleRequests (e.conv.id :: requested) e.conv.id es = 0 :=
              countAutoTitleRequests_eq_zero _ es _ (List.mem_cons_self _ _)
            simp [this]
          · simpa [hid] using ih (e.conv.id :: requested) id hout'
        | notOk =>
          by_cases hid : e.conv.id = id
          · subst hid
            have : countAutoTitleRequests (e.conv.id :: requested) e.conv.id es = 0 :=
              countAutoTitleRequests_eq_zero _ es _ (List.mem_cons_self _ _)
            simp [this]
          · simpa [hid] using ih (e.conv.id :: requested) id hout'

/-- C5 witness: a single successful load issues the POST exactly once, and
the bound of the amended theorem holds on that concrete trace. -/
theorem auto_title_at_most_once_witness :
    countAutoTitleRequests [] "c"
      [⟨⟨"c", "", false⟩, [⟨"user"⟩, ⟨"assistant"⟩], .ok⟩] ≤ 1 :=
  auto_title_at_most_once.2
    [⟨⟨"c", "", false⟩, [⟨"user"⟩, ⟨"assistant"⟩], .ok⟩] [] "c" (by decide)

/-- C6: the ETA line shows `Complete` exactly when `done == total > 0`,
shows `Calculating…` whenever fewer than 5 samples exist and the
completion condition fails, every shown estimate equals the sample
average times the remaining count (with at least 5 samples and work
remaining), and the sample window never exceeds 10 entries. -/
theorem ingest_eta_display :
    ∀ (ts : List ℚ) (done total : ℕ),
      ((etaDisplay ts done total = .complete) ↔ (done = total ∧ 0 < total))
      ∧ (ts.length < 5 → ¬(done = total ∧ 0 < total) →
          etaDisplay ts done total = .calculating)
      ∧ (∀ q, etaDisplay ts done total = .estimate q →
          q = (ts.sum / (ts.length : ℚ)) * ((total : ℚ) - (done : ℚ))
          ∧ 5 ≤ ts.length ∧ done < total)
      ∧ (∀ d : ℚ, ts.length ≤ 10 → (pushSample ts d).length ≤ 10) := by
  intro ts done total
  refine ⟨?_, ?_, ?_, ?_⟩
  · unfold etaDisplay
    split_ifs with h1 h2
    · constructor
      · intro h; cases h
      · rintro ⟨rfl, -⟩
        omega
    · simp [h2]
    · constructor
      · intro h; cases h
      · intro h; exact absurd h h2
  · intro hlen hnc
    unfold etaDisplay
    rw [if_neg (by omega), if_neg hnc]
  · intro q
    unfold etaDisplay
    split_ifs with h1 h2
    · intro h
      cases h
      exact ⟨rfl, h1.1, h1.2⟩
    · intro h; cases h
    · intro h; cases h
  · intro d hlen
    unfold pushSample
    dsimp only
    split_ifs with h <;> simp_all

/-- C6 witness: the completion conjunct applied at `done = total = 3` with
an empty sample window. -/
theorem ingest_eta_display_witness :
    etaDisplay [] 3 3 = .complete :=
  (ingest_eta_display [] 3 3).1.mpr ⟨rfl, by decide⟩

/-- C10: the progress-percent computation guards `total = 0` (yielding 0)
and stays within `[0, 100]` whenever `done ≤ total`; no division by zero
occurs (the division is taken only under `total ≠ 0`). -/
theorem ingest_progress_pct_bounds :
    ∀ done total : ℕ,
      (total = 0 → ingestProgressPct done total = 0)
      ∧ (done ≤ total → 0 ≤ ingestProgressPct done total
          ∧ ingestProgressPct done total ≤ 100) := by
  intro done total
  constructor
  · intro h
    simp [ingestProgressPct, h]
  · intro hle
    by_cases h0 : total = 0
    · simp [ingestProgressPct, h0]
    · have htpos : (0 : ℚ) < (total : ℚ) := by
        exact_mod_cast Nat.pos_of_ne_zero h0
      have hx0 : (0 : ℚ) ≤ (done : ℚ) / (total : ℚ) * 100 := by positivity
      have hx1 : (done : ℚ) / (total : ℚ) * 100 ≤ 100 := by
        have hdiv : (done : ℚ) / (total : ℚ) ≤ 1 :=
          (div_le_one htpos).mpr (by exact_mod_cast hle)
        nlinarith
      have hmono : ∀ x y : ℚ, x ≤ y → round x ≤ round y := by
        intro x y hxy
        rw [round_eq, round_eq]
        exact Int.floor_mono (by linarith)
      simp only [ingestProgressPct, h0, if_false]
      constructor
      · have h := hmono 0 _ hx0
        rwa [round_zero] at h
      · have h := hmono _ 100 hx1
        rwa [show round (100 : ℚ) = 100 by
          exact_mod_cast round_natCast (α := ℚ) 100] at h

/-- C10 witness: the bounds applied at `done = 3`, `total = 4`. -/
theorem ingest_progress_pct_bounds_witness :
    0 ≤ ingestProgressPct 3 4 ∧ ingestProgressPct 3 4 ≤ 100 :=
  (ingest_progress_pct_bounds 3 4).2 (by decide)
